import Mathlib

/-!
Verification of the reference-generation pipeline (`functions.py` / `ref_generator.py`).

The development shallowly embeds the pure data-flow of the Python sources:

* bibliographic entries (`bibtexparser` dicts) become association lists of
  string fields with Python `dict.get` lookup semantics;
* network services (Entrez elink / efetch, the `pubmed-bib` tool, CrossRef)
  become oracle parameters describing the sequence of responses a run observes;
* Python exceptions that the code does not catch become `Except` results;
* Python truthiness (`if not val`) is modelled explicitly: a field is "falsy"
  when it is absent or the empty string.

Every definition is translated from `src/functions.py` unless its doc comment
says otherwise.
-/

namespace SiftPM

/-- A `bibtexparser` entry: a mapping from field names to string values,
modelled as an association list with unique keys (Python dict). -/
abbrev Entry := List (String × String)

/-- Python `entry.get(key)`: the value of the field, or `none` when absent. -/
def Entry.get (e : Entry) (k : String) : Option String :=
  (e.find? (fun p => p.1 == k)).map (fun p => p.2)

/-- Python truthiness of `entry.get(key)`: `None` and `""` are falsy. -/
def falsyField (e : Entry) (k : String) : Bool :=
  match e.get k with
  | none => true
  | some v => v == ""

/-! ### Lightweight duplicate pass (`check_info_check_duplicates`, lines 528-555)

The helper `remove_duplicates(entries, key)` nested inside
`check_info_check_duplicates` walks the entry list keeping a `seen` set and a
`removed_keys` set; an entry with a falsy value for `key` is appended to the
surviving list unconditionally; an entry whose value was already seen is
dropped and its value added to `removed_keys`. -/

/-- Python `set.add`: insert a string into a set (modelled as a duplicate-free
list; only membership is ever consumed). -/
def insertSet (s : List String) (v : String) : List String :=
  if v ∈ s then s else v :: s

/-- The loop body of the nested `remove_duplicates(entries, key)` helper of
`check_info_check_duplicates`, with the `seen` and `removed_keys` accumulators
made explicit. -/
def pass_go (key : String) : List String → List String → List Entry → List Entry × List String
  | _, removed, [] => ([], removed)
  | seen, removed, e :: es =>
    match e.get key with
    | none =>
      let r := pass_go key seen removed es
      (e :: r.1, r.2)
    | some v =>
      if v = "" then
        let r := pass_go key seen removed es
        (e :: r.1, r.2)
      else if v ∈ seen then
        pass_go key seen (insertSet removed v) es
      else
        let r := pass_go key (insertSet seen v) removed es
        (e :: r.1, r.2)

/-- The nested `remove_duplicates(entries, key)` helper of
`check_info_check_duplicates`: returns the surviving entries (first-seen wins)
and the set of repeated values that were removed. -/
def check_dedup_pass (key : String) (entries : List Entry) : List Entry × List String :=
  pass_go key [] [] entries

/-- The three deduplication passes of `check_info_check_duplicates`
(lines 545-555): first by entry key `ID`, then by `pmid`, then by `doi`,
each pass operating on the previous pass's survivors.  Returns the final
surviving entries and the three removed-value sets. -/
def check_info_passes (entries : List Entry) :
    List Entry × List String × List String × List String :=
  let r1 := check_dedup_pass ("ID") entries
  let r2 := check_dedup_pass ("pmid") r1.1
  let r3 := check_dedup_pass ("doi") r2.1
  (r3.1, r1.2, r2.2, r3.2)

/-! ### Threshold filter (`ref_gen`, lines 656-670)

The citation-count loop of `ref_gen` sends a PMID to
`pmids_with_at_least_X_citations` when the fetched count is `not None` and
`>= threshold`, and to `pmids_sub_threshold` otherwise (including the `None`
failure signal).  The loop is abstracted over the list of
(identifier, count-or-failure) pairs it observes. -/

/-- The threshold-filter loop of `ref_gen`: partition the identifiers into
(kept, rejected) where `none` is the failure signal of `get_citations`. -/
def threshold_filter : List (String × Option Nat) → Nat → List String × List String
  | [], _ => ([], [])
  | (p, c) :: rest, t =>
    let r := threshold_filter rest t
    match c with
    | none => (r.1, p :: r.2)
    | some n => if t ≤ n then (p :: r.1, r.2) else (r.1, p :: r.2)

/-- The retention criterion of the threshold filter: a determined count that
reaches the threshold. -/
def keptPred (t : Nat) (pc : String × Option Nat) : Bool :=
  match pc.2 with
  | some n => decide (t ≤ n)
  | none => false

/-! ### Citation counter (`get_citations`, lines 190-242)

`get_citations` first rejects falsy or non-string PMIDs (returning `0`), then
makes up to `max_retries` Entrez `elink` attempts.  Each attempt either raises
an HTTP error (retried after a 2 second sleep, except on the last attempt),
raises `IndexError`/`KeyError` (conclusive `0`), raises anything else
(immediate `None`), or yields a parsed record from which the citation count is
read. -/

/-- The shape of one parsed `elink` record entry: the optional `Link` list
under the optional `LinkSetDb` key (`record[0]['LinkSetDb'][0]['Link']`). -/
structure LinkDbEntry where
  link : Option (List Unit)
deriving DecidableEq

/-- One element of the parsed `elink` response list: the optional `LinkSetDb`
list of `record[0]`. -/
structure LinkSetEntry where
  linkSetDb : Option (List LinkDbEntry)
deriving DecidableEq

/-- Outcome of one `Entrez.elink` + `Entrez.read` attempt, as observed by the
`try` block of `get_citations`. -/
inductive ElinkOutcome
  | httpError
  | parsed (record : List LinkSetEntry)
  | parseFailure
  | otherFailure
deriving DecidableEq

/-- The citation count read from a parsed record (the straight-line body of
the `try` block, lines 217-227): `0` when the record list is empty, the
`LinkSetDb` key is absent, the `LinkSetDb` list is empty or the `Link` key is
absent; otherwise the length of the `Link` list. -/
def elink_count : List LinkSetEntry → Nat
  | [] => 0
  | ls :: _ =>
    match ls.linkSetDb with
    | none => 0
    | some [] => 0
    | some (db :: _) =>
      match db.link with
      | none => 0
      | some links => links.length

/-- Observable trace of a `get_citations` call: the returned value (`none` is
the Python `None` failure signal), the number of `elink` attempts issued, and
the list of `time.sleep` delays performed (in seconds). -/
structure CitationsTrace where
  result : Option Nat
  attemptsMade : Nat
  sleeps : List Nat
deriving DecidableEq

/-- The retry loop of `get_citations` (`for retry in range(max_retries)`),
parameterised by the outcome of each attempt; `fuel` counts the remaining
iterations of the `range`. -/
def get_citations_go (attempts : Nat → ElinkOutcome) (maxRetries : Nat) :
    Nat → Nat → CitationsTrace
  | _, 0 => ⟨none, 0, []⟩
  | retry, fuel + 1 =>
    match attempts retry with
    | .parsed record => ⟨some (elink_count record), 1, []⟩
    | .parseFailure => ⟨some 0, 1, []⟩
    | .otherFailure => ⟨none, 1, []⟩
    | .httpError =>
      if retry < maxRetries - 1 then
        let r := get_citations_go attempts maxRetries (retry + 1) fuel
        ⟨r.result, r.attemptsMade + 1, 2 :: r.sleeps⟩
      else ⟨none, 1, []⟩

/-- The `pmid` argument of `get_citations`: a Python value that is either a
string or some non-string value (only its truthiness is ever inspected). -/
inductive PmidArg
  | str (s : String)
  | nonString (truthy : Bool)
deriving DecidableEq

/-- The guard `not pmid or not isinstance(pmid, str)` of `get_citations`:
true for the empty string and for every non-string value (a falsy non-string
fails the first test, a truthy non-string fails the `isinstance` test). -/
def pmid_invalid : PmidArg → Bool
  | .str s => s == ""
  | .nonString _ => true

/-- `get_citations(pmid, max_retries)` (lines 190-242): invalid input returns
`0` with no attempt; otherwise the retry loop runs. -/
def get_citations (pmid : PmidArg) (attempts : Nat → ElinkOutcome)
    (maxRetries : Nat) : CitationsTrace :=
  if pmid_invalid pmid then ⟨some 0, 0, []⟩
  else get_citations_go attempts maxRetries 0 maxRetries

/-! ### Record fetch with retry and fallback (`ref_gen`, lines 689-725)

For each kept PMID, `ref_gen` calls `get_bibtex_for_pmid` up to `max_retries
= 5` times (a falsy result triggers a sleep and another attempt), then falls
back to `get_bibtex_via_crossref` once; if both fail the error is appended to
`errors` and the loop `continue`s with the next PMID.  The two fetchers are
network oracles: `primary attempt` is the (truthy) result of the
`attempt`-th `get_bibtex_for_pmid` call, `none` standing for a falsy result. -/

/-- Modelled from the spec: `get_bibtex_via_crossref`, the secondary
metadata-API fallback, is called by `ref_gen` but its definition is absent
from the repository sources.  The spec (section 4.3) requires: "On primary
exhaustion, attempt exactly one fallback retrieval from a secondary metadata
API; report total failure only if both fail."  It is modelled as a single
query to an abstract CrossRef service returning a record string or failure. -/
def get_bibtex_via_crossref (crossref : String → Option String) (pmid : String) :
    Option String :=
  crossref pmid

/-- The Entrez retry loop of `ref_gen` (`while attempt < max_retries`):
returns the number of `get_bibtex_for_pmid` calls issued and the first truthy
result, if any.  `fuel` is `max_retries - attempt`. -/
def entrez_attempts (primary : Nat → Option String) : Nat → Nat → Nat × Option String
  | _, 0 => (0, none)
  | attempt, fuel + 1 =>
    match primary attempt with
    | some e => (1, some e)
    | none =>
      let r := entrez_attempts primary (attempt + 1) fuel
      (r.1 + 1, r.2)

/-- Observable trace of the per-PMID retrieval of `ref_gen`: how many primary
attempts and fallback attempts were issued, and the retrieved record (if
any). -/
structure FetchTrace where
  primaryAttempts : Nat
  fallbackAttempts : Nat
  result : Option String
deriving DecidableEq

/-- The per-PMID retrieval of `ref_gen` (lines 695-725): five primary
attempts, then exactly one CrossRef fallback when they are all exhausted. -/
def fetch_record (primary : Nat → Option String) (crossref : String → Option String)
    (pmid : String) : FetchTrace :=
  let r := entrez_attempts primary 0 5
  match r.2 with
  | some e => ⟨r.1, 0, some e⟩
  | none =>
    match get_bibtex_via_crossref crossref pmid with
    | some e => ⟨r.1, 1, some e⟩
    | none => ⟨r.1, 1, none⟩

/-- The retrieval loop of `ref_gen` over the kept PMIDs: returns the PMIDs
whose record was retrieved (from either source) and the PMIDs appended to the
`errors` log (both sources failed; the loop `continue`s, never aborting). -/
def ref_gen_fetch_loop (primary : String → Nat → Option String)
    (crossref : String → Option String) : List String → List String × List String
  | [] => ([], [])
  | p :: ps =>
    let rest := ref_gen_fetch_loop primary crossref ps
    match (fetch_record (primary p) crossref p).result with
    | some _ => (p :: rest.1, rest.2)
    | none => (rest.1, p :: rest.2)

/-! ### BibTeX enrichment (`append_doi_pmid_to_entry`, lines 343-405)

The enrichment step resolves a DOI (Entrez first, CrossRef fallback), then
textually patches the BibTeX entry: the new field lines are inserted
immediately before the last `}` of the entry, after stripping trailing
whitespace from the body and appending a comma to it when one is missing.
Entry strings are modelled as `List Char`. -/

/-- Python regex `\w` (ASCII part): letters, digits and underscore. -/
def isWordChar (c : Char) : Bool :=
  c.isAlpha || c.isDigit || c == '_'

/-- Python regex `\s` / `str.rstrip` whitespace (ASCII part). -/
def isSpacePy (c : Char) : Bool :=
  c == ' ' || c == '\t' || c == '\n' || c == '\r' || c == '\x0b' || c == '\x0c'

/-- Case-insensitive character match (`re.IGNORECASE`). -/
def charIEq (c d : Char) : Bool :=
  c.toLower == d.toLower

/-- Does `{.*?}` match at the head of the list: a `}` is reached before any
newline (`.` does not match `\n`)? -/
def bodyCloses : List Char → Bool
  | [] => false
  | c :: cs => if c == '}' then true else if c == '\n' then false else bodyCloses cs

/-- Does `pmid\s*=\s*{.*?}` (case-insensitive) match at the head of the
list? -/
def matchHere : List Char → Bool
  | p :: m :: i :: d :: rest =>
    if charIEq p 'p' && charIEq m 'm' && charIEq i 'i' && charIEq d 'd' then
      match rest.dropWhile isSpacePy with
      | '=' :: r2 =>
        match r2.dropWhile isSpacePy with
        | '{' :: r3 => bodyCloses r3
        | _ => false
      | _ => false
    else false
  | _ => false

/-- The word boundary `\b` before the literal `pmid`: satisfied at the start
of the string or after a non-word character. -/
def boundaryOk : Option Char → Bool
  | none => true
  | some c => !(isWordChar c)

/-- `re.search` scan for the pattern, carrying the previous character for the
word-boundary test. -/
def pmidSearch : Option Char → List Char → Bool
  | _, [] => false
  | prev, c :: cs =>
    (boundaryOk prev && matchHere (c :: cs)) || pmidSearch (some c) cs

/-- `re.search(r'\bpmid\s*=\s*{.*?}', bibtex_entry, re.IGNORECASE)` of
`append_doi_pmid_to_entry` (line 375), restricted to ASCII word characters. -/
def pmid_exists (entry : List Char) : Bool :=
  pmidSearch none entry

/-- Python `str.rstrip()`. -/
def rstrip (l : List Char) : List Char :=
  (l.reverse.dropWhile isSpacePy).reverse

/-- `bibtex_entry.rfind('}')` followed by the slicing
`bibtex_entry[:pos] / bibtex_entry[pos:]`: split the entry at its last `}`,
returning the part before it and the part after it ( `none` when the entry
has no `}`). -/
def splitAtLastBrace : List Char → Option (List Char × List Char)
  | [] => none
  | c :: cs =>
    match splitAtLastBrace cs with
    | some (b, t) => some (c :: b, t)
    | none => if c = '}' then some ([], cs) else none

/-- One inserted field line, `f'    KEY = {{{VAL}}},\n'`. -/
def fieldLine (key val : String) : List Char :=
  ("    ").toList ++ key.toList ++ (" = \x7b").toList ++ val.toList ++ ("\x7d,\n").toList

/-- The DOI/PMID resolution at the top of `append_doi_pmid_to_entry`
(lines 368-372): use the Entrez result `(doi, pmid_out)` when it carries a
DOI, otherwise fall back to `pmid_to_doi_via_crossref`, which always returns
the original PMID as its second component. -/
def resolve_doi_pmid (entrez : Option String × Option String)
    (crossref : Option String) (pmid : String) : Option String × Option String :=
  match entrez with
  | (some d, p) => (some d, p)
  | (none, _) => (crossref, some pmid)

/-- Python truthiness of the optional `pmid_out` string. -/
def truthyOptStr : Option String → Bool
  | none => false
  | some s => !(s == "")

/-- `append_doi_pmid_to_entry(bibtex_entry, pmid, email, api_key)`
(lines 343-405), with the two network lookups abstracted as the `entrez` and
`crossref` oracle results. -/
def append_doi_pmid_to_entry (entrez : Option String × Option String)
    (crossref : Option String) (entry : List Char) (pmid : String) : List Char :=
  let res := resolve_doi_pmid entrez crossref pmid
  let pmidExists := pmid_exists entry
  let linesToAdd : List Char :=
    (match res.1 with
     | some d => fieldLine ("DOI") d
     | none => []) ++
    (match res.2 with
     | some p => if !(p == "") && !pmidExists then fieldLine ("pmid") p else []
     | none => [])
  if linesToAdd = [] then entry
  else
    match splitAtLastBrace entry with
    | none => entry ++ linesToAdd
    | some (b, t) =>
      let before := rstrip b
      let before2 := if before.getLast? = some ',' then before else before ++ [',']
      before2 ++ '\n' :: (linesToAdd ++ '}' :: t)

/-! ### Duplicate resolution (`remove_duplicates`, lines 424-479)

`remove_duplicates` groups the entries of the merged file by
`entry.get('pmid')` into an insertion-ordered dict (so absent PMIDs all share
the key `None` and empty PMIDs all share the key `''`), then keeps one
representative per group: the sole member of a singleton group; otherwise the
first member whose title equals the authoritative title fetched by
`fetch_title_from_biopython`, when the fetch yields a truthy title and some
member matches; otherwise `sorted(entries, key=lambda x: x.get('year'))[0]`.
Python `sorted` raises `TypeError` as soon as a `None` key is compared, which
happens whenever the group has at least two members and one of them lacks a
`year`; with all years present it is a stable sort by the string `<` order,
so its head is the first member carrying the minimal year string. -/

/-- Python string `<`: lexicographic comparison by code point, a strict
prefix comparing smaller. -/
def pyStrLt : List Char → List Char → Bool
  | [], [] => false
  | [], _ :: _ => true
  | _ :: _, [] => false
  | c :: cs, d :: ds =>
    if c.toNat < d.toNat then true
    else if d.toNat < c.toNat then false
    else pyStrLt cs ds

/-- The grouping key of `remove_duplicates`: `entry.get('pmid')`. -/
def keyOf (e : Entry) : Option String :=
  e.get ("pmid")

/-- The key sequence of an insertion-ordered Python dict built by repeated
`groups[pmid].append(entry)`: the keys in first-occurrence order. -/
def dedupKeys : List (Option String) → List (Option String)
  | [] => []
  | k :: ks => k :: (dedupKeys ks).filter (fun x => !(x == k))

/-- The keys of the `groups` dict of `remove_duplicates`, in iteration
(first-occurrence) order. -/
def groupKeys (entries : List Entry) : List (Option String) :=
  dedupKeys (entries.map keyOf)

/-- The member list `groups[k]` of the `groups` dict: the entries whose
`pmid` key is `k`, in input order. -/
def groupOf (entries : List Entry) (k : Option String) : List Entry :=
  entries.filter (fun e => keyOf e == k)

/-- `fetch_title_from_biopython` wrapped as in its `return title if title
else None` (line 422): the oracle `fT` gives the raw outcome of the Entrez
fetch for the group key (`Except.error` when the unguarded network call
raises), and a falsy title collapses to `none`. -/
def fetch_title (fT : Option String → Except String (Option String))
    (k : Option String) : Except String (Option String) :=
  match fT k with
  | Except.error m => Except.error m
  | Except.ok none => Except.ok none
  | Except.ok (some t) => Except.ok (if t = "" then none else some t)

/-- Does the entry have a `year` field (a `None` sort key raises
`TypeError`)? -/
def hasYear (e : Entry) : Bool :=
  (e.get ("year")).isSome

/-- The comparison performed by `sorted(entries, key=lambda x:
x.get('year'))` between two entries whose keys are both strings. -/
def yearLt (a b : Entry) : Bool :=
  match a.get ("year"), b.get ("year") with
  | some x, some y => pyStrLt x.toList y.toList
  | _, _ => false

/-- The head of the stable sort by year: the first entry whose year string is
minimal (Python `sorted` is stable, so `sorted(entries, key=year)[0]` is the
first-encountered minimum). -/
def firstMinByYear (e : Entry) (es : List Entry) : Entry :=
  es.foldl (fun best x => if yearLt x best then x else best) e

/-- `sorted(entries, key=lambda x: x.get('year'))[0]` with Python error
semantics: `IndexError` on an empty list, no comparison (hence no error) on a
singleton, `TypeError` as soon as a missing year is compared — which happens
exactly when the list has two or more elements and some element lacks a
year. -/
def selectByYear : List Entry → Except String Entry
  | [] => Except.error ("IndexError")
  | [e] => Except.ok e
  | e :: es =>
    if (e :: es).all hasYear then Except.ok (firstMinByYear e es)
    else Except.error ("TypeError")

/-- The per-group resolution of `remove_duplicates` (lines 450-464): keep the
sole member of a singleton group; otherwise fetch the authoritative title and
keep the first member whose `title` equals it, falling back to the
earliest-year member when the title is unavailable or unmatched. -/
def resolveGroup (fT : Option String → Except String (Option String))
    (k : Option String) (es : List Entry) : Except String Entry :=
  match es with
  | [e] => Except.ok e
  | _ =>
    match fetch_title fT k with
    | Except.error m => Except.error m
    | Except.ok (some t) =>
      match es.filter (fun e => e.get ("title") == some t) with
      | m :: _ => Except.ok m
      | [] => selectByYear es
    | Except.ok none => selectByYear es

/-- The group-resolution loop of `remove_duplicates` (`for pmid, entries in
groups.items()`): one representative per key in group-visitation order; an
uncaught exception in any group aborts the whole call. -/
def resolveAll (fT : Option String → Except String (Option String))
    (entries : List Entry) : List (Option String) → Except String (List Entry)
  | [] => Except.ok []
  | k :: ks =>
    match resolveGroup fT k (groupOf entries k) with
    | Except.error m => Except.error m
    | Except.ok r =>
      match resolveAll fT entries ks with
      | Except.error m => Except.error m
      | Except.ok rs => Except.ok (r :: rs)

/-- `remove_duplicates` (lines 424-479), restricted to its in-memory
data-flow: group the entries by `pmid` value and resolve each group. -/
def remove_duplicates (fT : Option String → Except String (Option String))
    (entries : List Entry) : Except String (List Entry) :=
  resolveAll fT entries (groupKeys entries)

/-! ## Lemmas about the lightweight duplicate pass -/

/-- An entry whose value for the pass key is absent or empty is kept by the
pass loop, whatever the accumulator states. -/
theorem pass_go_keeps_falsy (key : String) (e : Entry)
    (hv : e.get key = none ∨ e.get key = some "") :
    ∀ (es : List Entry) (seen removed : List String),
      e ∈ es → e ∈ (pass_go key seen removed es).1 := by
  intro es
  induction es with
  | nil => intro seen removed h; exact absurd h (List.not_mem_nil e)
  | cons a as ih =>
    intro seen removed h
    rcases List.mem_cons.mp h with rfl | hmem
    · rcases hv with hv | hv <;> simp [pass_go, hv]
    · unfold pass_go
      rcases hga : a.get key with _ | v
      · simpa using Or.inr (ih seen removed hmem)
      · by_cases hve : v = ""
        · simpa [hve] using Or.inr (ih seen removed hmem)
        · by_cases hseen : v ∈ seen
          · simpa [hve, hseen] using ih seen (insertSet removed v) hmem
          · simpa [hve, hseen] using Or.inr (ih (insertSet seen v) removed hmem)

/-- The removed-value set produced by the pass loop contains only non-empty
strings, provided the accumulator it starts from does. -/
theorem pass_go_removed_nonempty (key : String) :
    ∀ (es : List Entry) (seen removed : List String),
      (∀ v ∈ removed, v ≠ "") →
      ∀ v ∈ (pass_go key seen removed es).2, v ≠ "" := by
  intro es
  induction es with
  | nil => intro seen removed hrem v hmem; exact hrem v hmem
  | cons a as ih =>
    intro seen removed hrem v hmem
    unfold pass_go at hmem
    rcases hga : a.get key with _ | w
    · rw [hga] at hmem
      exact ih seen removed hrem v hmem
    · rw [hga] at hmem
      by_cases hwe : w = ""
      · simp only [hwe, if_pos rfl] at hmem
        exact ih seen removed hrem v hmem
      · by_cases hseen : w ∈ seen
        · simp only [if_neg hwe, if_pos hseen] at hmem
          refine ih seen (insertSet removed w) ?_ v hmem
          intro u hu
          unfold insertSet at hu
          by_cases hwr : w ∈ removed
          · exact hrem u (by simpa [hwr] using hu)
          · rcases List.mem_cons.mp (by simpa [hwr] using hu) with rfl | hu2
            · exact hwe
            · exact hrem u hu2
        · simp only [if_neg hwe, if_neg hseen] at hmem
          exact ih (insertSet seen w) removed hrem v hmem

/-- C10: in each pass of the lightweight duplicate check (entry key, then
persistent identifier, then document identifier), every entry whose value for
the current key is missing or empty is retained in the surviving list and its
value is never added to that pass's removed-values set (which holds only
non-empty strings); an entry falsy for all three keys survives the whole
three-pass chain. -/
theorem claim_C10_lightweight_pass_keeps_falsy (entries : List Entry) (key : String)
    (e : Entry) (he : e ∈ entries) (hv : e.get key = none ∨ e.get key = some "") :
    e ∈ (check_dedup_pass key entries).1 ∧
    (∀ v ∈ (check_dedup_pass key entries).2, v ≠ "") ∧
    ((e.get ("ID") = none ∨ e.get ("ID") = some "") →
     (e.get ("pmid") = none ∨ e.get ("pmid") = some "") →
     (e.get ("doi") = none ∨ e.get ("doi") = some "") →
     e ∈ (check_info_passes entries).1) := by
  refine ⟨pass_go_keeps_falsy key e hv entries [] [] he, ?_, ?_⟩
  · exact pass_go_removed_nonempty key entries [] [] (by intro v hv2; cases hv2)
  · intro h1 h2 h3
    have s1 : e ∈ (check_dedup_pass ("ID") entries).1 :=
      pass_go_keeps_falsy ("ID") e h1 entries [] [] he
    have s2 : e ∈ (check_dedup_pass ("pmid") (check_dedup_pass ("ID") entries).1).1 :=
      pass_go_keeps_falsy ("pmid") e h2 _ [] [] s1
    have s3 : e ∈ (check_dedup_pass ("doi")
        (check_dedup_pass ("pmid") (check_dedup_pass ("ID") entries).1).1).1 :=
      pass_go_keeps_falsy ("doi") e h3 _ [] [] s2
    simpa [check_info_passes] using s3

/-- Witness for C10: a single entry with no `pmid` field survives the `pmid`
pass (and the full chain). -/
theorem claim_C10_witness :
    ([("title", "x")] : Entry) ∈ ([[("title", "x")], [("pmid", "1")]] : List Entry) ∧
    Entry.get [("title", "x")] ("pmid") = none ∧
    ([("title", "x")] : Entry) ∈
      (check_dedup_pass ("pmid") [[("title", "x")], [("pmid", "1")]]).1 := by
  refine ⟨by decide, by decide, ?_⟩
  exact (claim_C10_lightweight_pass_keeps_falsy [[("title", "x")], [("pmid", "1")]]
    ("pmid") [("title", "x")] (by decide) (Or.inl (by decide))).1

/-! ## Lemmas about the threshold filter -/

/-- The kept partition is the list of identifiers whose count is determined
and reaches the threshold, in input order. -/
theorem threshold_filter_kept_eq (l : List (String × Option Nat)) (t : Nat) :
    (threshold_filter l t).1 = (l.filter (keptPred t)).map Prod.fst := by
  induction l with
  | nil => rfl
  | cons pc rest ih =>
    obtain ⟨p, c⟩ := pc
    cases c with
    | none => simpa [threshold_filter, keptPred] using ih
    | some n =>
      by_cases h : t ≤ n
      · simpa [threshold_filter, keptPred, h] using ih
      · simpa [threshold_filter, keptPred, h] using ih

/-- The rejected partition is the list of identifiers whose count is the
failure signal or below the threshold, in input order. -/
theorem threshold_filter_rejected_eq (l : List (String × Option Nat)) (t : Nat) :
    (threshold_filter l t).2 = (l.filter (fun pc => !keptPred t pc)).map Prod.fst := by
  induction l with
  | nil => rfl
  | cons pc rest ih =>
    obtain ⟨p, c⟩ := pc
    cases c with
    | none => simpa [threshold_filter, keptPred] using ih
    | some n =>
      by_cases h : t ≤ n
      · simpa [threshold_filter, keptPred, h] using ih
      · simpa [threshold_filter, keptPred, h] using ih

/-- Kept and rejected together are a permutation of the input identifiers. -/
theorem threshold_filter_perm (l : List (String × Option Nat)) (t : Nat) :
    List.Perm ((threshold_filter l t).1 ++ (threshold_filter l t).2) (l.map Prod.fst) := by
  induction l with
  | nil => simp [threshold_filter]
  | cons pc rest ih =>
    obtain ⟨p, c⟩ := pc
    cases c with
    | none =>
      simp only [threshold_filter, List.map_cons]
      exact (List.perm_middle).trans (ih.cons p)
    | some n =>
      by_cases h : t ≤ n
      · simp only [threshold_filter, if_pos h, List.map_cons, List.cons_append]
        exact ih.cons p
      · simp only [threshold_filter, if_neg h, List.map_cons]
        exact (List.perm_middle).trans (ih.cons p)

/-- In a list of pairs with pairwise-distinct first components, two members
with equal first components are equal. -/
theorem nodup_keys_pair_eq {α β : Type} (l : List (α × β))
    (hnd : (l.map Prod.fst).Nodup) :
    ∀ a b, a ∈ l → b ∈ l → a.1 = b.1 → a = b := by
  induction l with
  | nil => intro a b ha; exact absurd ha (List.not_mem_nil a)
  | cons x xs ih =>
    intro a b ha hb hab
    rw [List.map_cons, List.nodup_cons] at hnd
    rcases List.mem_cons.mp ha with rfl | ha2
    · rcases List.mem_cons.mp hb with rfl | hb2
      · rfl
      · exact absurd (hab ▸ List.mem_map_of_mem Prod.fst hb2) hnd.1
    · rcases List.mem_cons.mp hb with rfl | hb2
      · exact absurd (hab ▸ List.mem_map_of_mem Prod.fst ha2) hnd.1
      · exact ih hnd.2 a b ha2 hb2 hab

/-- C4 counterexample: when the same identifier appears twice in the input
list, once with a determined count above the threshold and once with the
failure signal, it is placed in both partitions, so the kept and rejected
partitions are not disjoint as the claim states. -/
theorem claim_C4_counterexample :
    threshold_filter [("1", some 15), ("1", none)] 10 = (["1"], ["1"]) ∧
    "1" ∈ (threshold_filter [("1", some 15), ("1", none)] 10).1 ∧
    "1" ∈ (threshold_filter [("1", some 15), ("1", none)] 10).2 := by
  refine ⟨rfl, ?_, ?_⟩ <;> decide

/-- C4 (amended): the threshold filter keeps an identifier iff its count is a
determined value ≥ t, and an identifier paired with the failure signal is
always rejected; each input pair is placed in exactly one partition (kept and
rejected are the identifiers of the passing and failing pairs respectively,
and together they are a permutation of the input identifiers); when the input
identifiers are pairwise distinct, the two partitions are disjoint. -/
theorem claim_C4_threshold_partition (l : List (String × Option Nat)) (t : Nat)
    (hnd : (l.map Prod.fst).Nodup) :
    (threshold_filter l t).1 = (l.filter (keptPred t)).map Prod.fst ∧
    (threshold_filter l t).2 = (l.filter (fun pc => !keptPred t pc)).map Prod.fst ∧
    List.Perm ((threshold_filter l t).1 ++ (threshold_filter l t).2) (l.map Prod.fst) ∧
    (∀ p c, (p, c) ∈ l →
      (p ∈ (threshold_filter l t).1 ↔ ∃ n, c = some n ∧ t ≤ n)) ∧
    (∀ p, ¬(p ∈ (threshold_filter l t).1 ∧ p ∈ (threshold_filter l t).2)) := by
  refine ⟨threshold_filter_kept_eq l t, threshold_filter_rejected_eq l t,
    threshold_filter_perm l t, ?_, ?_⟩
  · intro p c hpc
    rw [threshold_filter_kept_eq]
    constructor
    · intro hp
      obtain ⟨pc2, hpc2, hfst⟩ := List.mem_map.mp hp
      obtain ⟨hpc2l, hkept⟩ := List.mem_filter.mp hpc2
      have heq : pc2 = (p, c) :=
        nodup_keys_pair_eq l hnd pc2 (p, c) hpc2l hpc (by simpa using hfst)
      rw [heq] at hkept
      unfold keptPred at hkept
      cases c with
      | none => exact absurd hkept (by simp)
      | some n => exact ⟨n, rfl, by simpa using of_decide_eq_true hkept⟩
    · rintro ⟨n, rfl, hn⟩
      refine List.mem_map.mpr ⟨(p, some n), List.mem_filter.mpr ⟨hpc, ?_⟩, rfl⟩
      unfold keptPred
      simpa using hn
  · rintro p ⟨h1, h2⟩
    rw [threshold_filter_kept_eq] at h1
    rw [threshold_filter_rejected_eq] at h2
    obtain ⟨pc1, hpc1, hfst1⟩ := List.mem_map.mp h1
    obtain ⟨pc2, hpc2, hfst2⟩ := List.mem_map.mp h2
    obtain ⟨hl1, hk1⟩ := List.mem_filter.mp hpc1
    obtain ⟨hl2, hk2⟩ := List.mem_filter.mp hpc2
    have heq : pc1 = pc2 := nodup_keys_pair_eq l hnd pc1 pc2 hl1 hl2 (by rw [hfst1, hfst2])
    rw [← heq, hk1] at hk2
    exact absurd hk2 (by simp)

/-- Witness for C4: the spec's own scenario — counts 15, 3 and failure with
threshold 10 keep `1001` and reject `1002`, `1003`. -/
theorem claim_C4_witness :
    ((([("1001", some 15), ("1002", some 3), ("1003", none)] :
        List (String × Option Nat)).map Prod.fst).Nodup ∧
      ("1001" ∈ (threshold_filter [("1001", some 15), ("1002", some 3), ("1003", none)] 10).1 ↔
        ∃ n, (some 15 : Option Nat) = some n ∧ 10 ≤ n)) ∧
    threshold_filter [("1001", some 15), ("1002", some 3), ("1003", none)] 10 =
      (["1001"], ["1002", "1003"]) := by
  refine ⟨⟨by decide, ?_⟩, by decide⟩
  exact (claim_C4_threshold_partition [("1001", some 15), ("1002", some 3), ("1003", none)]
    10 (by decide)).2.2.2.1 ("1001") (some 15) (by decide)

/-- C5: for a valid PMID, `get_citations` retries transient HTTP errors up to
3 attempts with a 2-second delay between attempts and then returns the
failure signal `None`; a parse failure of a received response returns the
conclusive count 0 with no retry; any other unexpected failure returns the
failure signal immediately with no retry; and the failure signal `none` is
distinct from the count `some 0`. -/
theorem claim_C5_citations_retry (p : PmidArg) (attempts : Nat → ElinkOutcome)
    (hval : pmid_invalid p = false) :
    ((∀ i, i < 3 → attempts i = ElinkOutcome.httpError) →
      get_citations p attempts 3 = ⟨none, 3, [2, 2]⟩) ∧
    (attempts 0 = ElinkOutcome.parseFailure →
      get_citations p attempts 3 = ⟨some 0, 1, []⟩) ∧
    (attempts 0 = ElinkOutcome.otherFailure →
      get_citations p attempts 3 = ⟨none, 1, []⟩) ∧
    (none : Option Nat) ≠ some 0 := by
  refine ⟨?_, ?_, ?_, by simp⟩
  · intro h
    simp [get_citations, hval, get_citations_go,
      h 0 (by omega), h 1 (by omega), h 2 (by omega)]
  · intro h
    simp [get_citations, hval, get_citations_go, h]
  · intro h
    simp [get_citations, hval, get_citations_go, h]

/-- Witness for C5: with every attempt failing with an HTTP error, the call
makes exactly 3 attempts, sleeps twice for 2 seconds, and returns `None`. -/
theorem claim_C5_witness :
    pmid_invalid (PmidArg.str ("1001")) = false ∧
    get_citations (PmidArg.str ("1001")) (fun _ => ElinkOutcome.httpError) 3 =
      ⟨none, 3, [2, 2]⟩ := by
  refine ⟨by decide, ?_⟩
  exact (claim_C5_citations_retry (PmidArg.str ("1001"))
    (fun _ => ElinkOutcome.httpError) (by decide)).1 (fun i _ => rfl)

/-- C9: for an input that is the empty string or not a string, `get_citations`
returns the determined count 0 immediately, with no network attempt, no sleep
and no failure signal. -/
theorem claim_C9_invalid_pmid_zero (p : PmidArg) (attempts : Nat → ElinkOutcome)
    (h : p = PmidArg.str "" ∨ ∃ b, p = PmidArg.nonString b) :
    get_citations p attempts 3 = ⟨some 0, 0, []⟩ := by
  rcases h with rfl | ⟨b, rfl⟩ <;> simp [get_citations, pmid_invalid]

/-- Witness for C9: the empty-string PMID yields 0 with zero attempts. -/
theorem claim_C9_witness :
    (PmidArg.str "" = PmidArg.str "" ∨ ∃ b, PmidArg.str "" = PmidArg.nonString b) ∧
    get_citations (PmidArg.str "") (fun _ => ElinkOutcome.httpError) 3 =
      ⟨some 0, 0, []⟩ :=
  ⟨Or.inl rfl, claim_C9_invalid_pmid_zero (PmidArg.str "")
    (fun _ => ElinkOutcome.httpError) (Or.inl rfl)⟩

/-! ## Lemmas about the `ref_gen` retrieval loop -/

/-- When every primary attempt in the window fails, the retry loop issues
exactly `fuel` calls and returns no record. -/
theorem entrez_attempts_none (primary : Nat → Option String) :
    ∀ (fuel a : Nat), (∀ i, a ≤ i → i < a + fuel → primary i = none) →
      entrez_attempts primary a fuel = (fuel, none) := by
  intro fuel
  induction fuel with
  | zero => intro a _; rfl
  | succ n ih =>
    intro a h
    have h0 : primary a = none := h a (le_refl a) (by omega)
    have hr : entrez_attempts primary (a + 1) n = (n, none) :=
      ih (a + 1) (fun i h1 h2 => h i (by omega) (by omega))
    simp [entrez_attempts, h0, hr]

/-- A PMID is in the error log of the retrieval loop iff it is an input PMID
whose retrieval produced no record. -/
theorem fetch_loop_mem_errors (primary : String → Nat → Option String)
    (crossref : String → Option String) (p : String) :
    ∀ ps, p ∈ (ref_gen_fetch_loop primary crossref ps).2 ↔
      (p ∈ ps ∧ (fetch_record (primary p) crossref p).result = none) := by
  intro ps
  induction ps with
  | nil => simp [ref_gen_fetch_loop]
  | cons q qs ih =>
    unfold ref_gen_fetch_loop
    cases hq : (fetch_record (primary q) crossref q).result with
    | none =>
      simp only [List.mem_cons]
      constructor
      · intro h
        rcases h with rfl | h2
        · exact ⟨Or.inl rfl, hq⟩
        · exact ⟨Or.inr (ih.mp h2).1, (ih.mp h2).2⟩
      · rintro ⟨hm, hres⟩
        rcases hm with rfl | hm2
        · exact Or.inl rfl
        · exact Or.inr (ih.mpr ⟨hm2, hres⟩)
    | some e =>
      simp only [List.mem_cons]
      constructor
      · intro h
        exact ⟨Or.inr (ih.mp h).1, (ih.mp h).2⟩
      · rintro ⟨hm, hres⟩
        rcases hm with rfl | hm2
        · rw [hq] at hres; cases hres
        · exact ih.mpr ⟨hm2, hres⟩

/-- A PMID is in the fetched list of the retrieval loop iff it is an input
PMID whose retrieval produced a record. -/
theorem fetch_loop_mem_fetched (primary : String → Nat → Option String)
    (crossref : String → Option String) (p : String) :
    ∀ ps, p ∈ (ref_gen_fetch_loop primary crossref ps).1 ↔
      (p ∈ ps ∧ (fetch_record (primary p) crossref p).result ≠ none) := by
  intro ps
  induction ps with
  | nil => simp [ref_gen_fetch_loop]
  | cons q qs ih =>
    unfold ref_gen_fetch_loop
    cases hq : (fetch_record (primary q) crossref q).result with
    | none =>
      simp only [List.mem_cons]
      constructor
      · intro h
        exact ⟨Or.inr (ih.mp h).1, (ih.mp h).2⟩
      · rintro ⟨hm, hres⟩
        rcases hm with rfl | hm2
        · exact absurd hq hres
        · exact ih.mpr ⟨hm2, hres⟩
    | some e =>
      simp only [List.mem_cons]
      constructor
      · intro h
        rcases h with rfl | h2
        · exact ⟨Or.inl rfl, by rw [hq]; exact Option.some_ne_none e⟩
        · exact ⟨Or.inr (ih.mp h2).1, (ih.mp h2).2⟩
      · rintro ⟨hm, hres⟩
        rcases hm with rfl | hm2
        · exact Or.inl rfl
        · exact Or.inr (ih.mpr ⟨hm2, hres⟩)

/-- Every input PMID is processed: the fetched list and the error log
together account for the whole input list. -/
theorem fetch_loop_length (primary : String → Nat → Option String)
    (crossref : String → Option String) :
    ∀ ps, (ref_gen_fetch_loop primary crossref ps).1.length +
      (ref_gen_fetch_loop primary crossref ps).2.length = ps.length := by
  intro ps
  induction ps with
  | nil => rfl
  | cons q qs ih =>
    unfold ref_gen_fetch_loop
    cases hq : (fetch_record (primary q) crossref q).result with
    | none =>
      simp only [List.length_cons]
      omega
    | some e =>
      simp only [List.length_cons]
      omega

/-- C3: for every kept identifier whose primary retrieval fails on all 5
attempts, exactly one fallback retrieval is attempted (after exactly 5
primary attempts); the identifier lands in the error log iff the fallback
also fails, and is retrieved otherwise; and in every case each input
identifier is processed (fetched or logged), so a per-identifier failure
never aborts the run. -/
theorem claim_C3_fallback_and_skip (primary : String → Nat → Option String)
    (crossref : String → Option String) (pmids : List String) (p : String)
    (hp : p ∈ pmids) (h5 : ∀ i, i < 5 → primary p i = none) :
    (fetch_record (primary p) crossref p).primaryAttempts = 5 ∧
    (fetch_record (primary p) crossref p).fallbackAttempts = 1 ∧
    (crossref p = none →
      p ∈ (ref_gen_fetch_loop primary crossref pmids).2 ∧
      p ∉ (ref_gen_fetch_loop primary crossref pmids).1) ∧
    (∀ e, crossref p = some e →
      p ∈ (ref_gen_fetch_loop primary crossref pmids).1 ∧
      p ∉ (ref_gen_fetch_loop primary crossref pmids).2) ∧
    (ref_gen_fetch_loop primary crossref pmids).1.length +
      (ref_gen_fetch_loop primary crossref pmids).2.length = pmids.length := by
  have he : entrez_attempts (primary p) 0 5 = (5, none) :=
    entrez_attempts_none (primary p) 5 0 (fun i _ h2 => h5 i (by omega))
  have hres : (fetch_record (primary p) crossref p).result = crossref p := by
    unfold fetch_record get_bibtex_via_crossref
    rw [he]
    cases crossref p <;> rfl
  refine ⟨?_, ?_, ?_, ?_, fetch_loop_length primary crossref pmids⟩
  · unfold fetch_record get_bibtex_via_crossref
    rw [he]
    cases crossref p <;> rfl
  · unfold fetch_record get_bibtex_via_crossref
    rw [he]
    cases crossref p <;> rfl
  · intro hc
    rw [hc] at hres
    refine ⟨(fetch_loop_mem_errors primary crossref p pmids).mpr ⟨hp, hres⟩, ?_⟩
    intro hmem
    exact ((fetch_loop_mem_fetched primary crossref p pmids).mp hmem).2 hres
  · intro e hc
    rw [hc] at hres
    refine ⟨(fetch_loop_mem_fetched primary crossref p pmids).mpr
      ⟨hp, by rw [hres]; exact Option.some_ne_none e⟩, ?_⟩
    intro hmem
    have := ((fetch_loop_mem_errors primary crossref p pmids).mp hmem).2
    rw [hres] at this
    cases this

/-- Witness for C3: a PMID whose 5 primary attempts and single fallback all
fail is logged as an error and the run still accounts for every input. -/
theorem claim_C3_witness :
    (("1001" : String) ∈ (["1001"] : List String)) ∧
    (fetch_record (fun _ => none) (fun _ => none) ("1001")).primaryAttempts = 5 ∧
    (fetch_record (fun _ => none) (fun _ => none) ("1001")).fallbackAttempts = 1 ∧
    ("1001" : String) ∈ (ref_gen_fetch_loop (fun _ _ => none) (fun _ => none) ["1001"]).2 := by
  have h := claim_C3_fallback_and_skip (fun _ _ => none) (fun _ => none) ["1001"]
    ("1001") (by decide) (fun i _ => rfl)
  exact ⟨by decide, h.1, h.2.1, (h.2.2.1 rfl).1⟩

/-! ## Lemmas about the textual BibTeX patch -/

/-- `splitAtLastBrace` fails exactly on brace-free strings. -/
theorem splitAtLastBrace_none : ∀ l : List Char, splitAtLastBrace l = none → '}' ∉ l := by
  intro l
  induction l with
  | nil => intro _ h; exact List.not_mem_nil '}' h
  | cons c cs ih =>
    intro h
    unfold splitAtLastBrace at h
    cases hs : splitAtLastBrace cs with
    | some bt => rw [hs] at h; cases h
    | none =>
      rw [hs] at h
      by_cases hc : c = '}'
      · rw [if_pos hc] at h; cases h
      · intro hmem
        rcases List.mem_cons.mp hmem with rfl | hmem2
        · exact hc rfl
        · exact ih hs hmem2

/-- A successful `splitAtLastBrace` decomposes the string at its last brace:
the suffix after the split point is brace-free. -/
theorem splitAtLastBrace_some : ∀ (l b t : List Char),
    splitAtLastBrace l = some (b, t) → l = b ++ '}' :: t ∧ '}' ∉ t := by
  intro l
  induction l with
  | nil => intro b t h; cases h
  | cons c cs ih =>
    intro b t h
    unfold splitAtLastBrace at h
    cases hs : splitAtLastBrace cs with
    | some bt =>
      rw [hs] at h
      obtain ⟨hb, ht⟩ : c :: bt.1 = b ∧ bt.2 = t := by
        constructor <;> injection h with h2 <;> simp_all
      obtain ⟨hcs, hnot⟩ := ih bt.1 bt.2 (by rw [hs])
      subst hb
      subst ht
      exact ⟨by rw [hcs]; rfl, hnot⟩
    | none =>
      rw [hs] at h
      by_cases hc : c = '}'
      · rw [if_pos hc] at h
        obtain ⟨hb, ht⟩ : ([] : List Char) = b ∧ cs = t := by
          constructor <;> injection h with h2 <;> simp_all
        subst hb
        subst ht
        exact ⟨by rw [hc]; rfl, splitAtLastBrace_none _ hs⟩
      · rw [if_neg hc] at h; cases h

/-- A string containing a brace is split successfully. -/
theorem splitAtLastBrace_isSome : ∀ l : List Char, '}' ∈ l →
    ∃ b t, splitAtLastBrace l = some (b, t) := by
  intro l
  induction l with
  | nil => intro h; exact absurd h (List.not_mem_nil '}')
  | cons c cs ih =>
    intro h
    unfold splitAtLastBrace
    cases hs : splitAtLastBrace cs with
    | some bt => exact ⟨c :: bt.1, bt.2, rfl⟩
    | none =>
      have hc : c = '}' := by
        rcases List.mem_cons.mp h with rfl | hmem
        · rfl
        · exact absurd hmem (splitAtLastBrace_none cs hs)
      exact ⟨[], cs, by rw [if_pos hc]⟩

/-- A field line is never the empty string. -/
theorem fieldLine_ne_nil (key val : String) : fieldLine key val ≠ [] := by
  unfold fieldLine
  intro h
  rw [show ("    ").toList = [' ', ' ', ' ', ' '] from rfl] at h
  simp at h

/-- Unfolding of `append_doi_pmid_to_entry` on an entry containing a brace,
when the lookups resolve a DOI and return the original PMID. -/
theorem append_doi_pmid_eq (entrez : Option String × Option String)
    (crossref : Option String) (entry : List Char) (pmid : String) (d : String)
    (b t : List Char)
    (hD : (resolve_doi_pmid entrez crossref pmid).1 = some d)
    (hP : (resolve_doi_pmid entrez crossref pmid).2 = some pmid)
    (hpm : pmid ≠ "")
    (hsplit : splitAtLastBrace entry = some (b, t)) :
    append_doi_pmid_to_entry entrez crossref entry pmid =
      (if (rstrip b).getLast? = some ',' then rstrip b else rstrip b ++ [',']) ++
      '\n' :: ((fieldLine ("DOI") d ++
        (if pmid_exists entry then [] else fieldLine ("pmid") pmid)) ++ '}' :: t) := by
  have hbeq : (pmid == "") = false := by simpa using hpm
  unfold append_doi_pmid_to_entry
  simp only [hD, hP, hbeq, Bool.not_false, Bool.true_and]
  cases hpe : pmid_exists entry with
  | true =>
    simp only [hpe, Bool.not_true, Bool.and_false, if_false, List.append_nil,
      Bool.false_eq_true]
    rw [if_neg (fieldLine_ne_nil ("DOI") d), hsplit]
    simp [List.append_assoc]
  | false =>
    simp only [hpe, Bool.not_false, Bool.and_true, if_true]
    rw [if_neg (by intro h; exact fieldLine_ne_nil ("DOI") d (List.append_eq_nil.mp h).1),
      hsplit]
    simp [List.append_assoc]

/-- C8: for every record string containing a closing brace, when the lookups
resolve a DOI, the enrichment inserts the DOI field line and — exactly when no
`pmid` field is already present (case-insensitive check) — a `pmid` field
line, immediately before the record's final closing brace (the brace-free
suffix after it is preserved); the preceding body is kept with its trailing
whitespace stripped and a separating comma appended exactly when it does not
already end in one, so the body always ends with a comma before the inserted
fields. -/
theorem claim_C8_textual_patch (entrez : Option String × Option String)
    (crossref : Option String) (entry : List Char) (pmid : String) (d : String)
    (hbrace : '}' ∈ entry)
    (hD : (resolve_doi_pmid entrez crossref pmid).1 = some d)
    (hP : (resolve_doi_pmid entrez crossref pmid).2 = some pmid)
    (hpm : pmid ≠ "") :
    ∃ pre t body,
      entry = pre ++ '}' :: t ∧ '}' ∉ t ∧
      append_doi_pmid_to_entry entrez crossref entry pmid =
        body ++ '\n' :: ((fieldLine ("DOI") d ++
          (if pmid_exists entry then [] else fieldLine ("pmid") pmid)) ++ '}' :: t) ∧
      body.getLast? = some ',' ∧
      (if (rstrip pre).getLast? = some ',' then body = rstrip pre
       else body = rstrip pre ++ [',']) := by
  obtain ⟨b, t, hsplit⟩ := splitAtLastBrace_isSome entry hbrace
  obtain ⟨hbt, hnot⟩ := splitAtLastBrace_some entry b t hsplit
  refine ⟨b, t, if (rstrip b).getLast? = some ',' then rstrip b else rstrip b ++ [','],
    hbt, hnot, append_doi_pmid_eq entrez crossref entry pmid d b t hD hP hpm hsplit,
    ?_, ?_⟩
  · by_cases hc : (rstrip b).getLast? = some ','
    · rw [if_pos hc]; exact hc
    · rw [if_neg hc]; exact List.getLast?_concat (rstrip b)
  · by_cases hc : (rstrip b).getLast? = some ','
    · rw [if_pos hc, if_pos hc]
    · rw [if_neg hc, if_neg hc]

/-- Witness for C8: enriching a concrete entry whose body lacks a trailing
comma and has no `pmid` field. -/
theorem claim_C8_witness :
    ('}' ∈ ("@article\x7bk,\n  title = \x7bT\x7d\n\x7d").toList) ∧
    (resolve_doi_pmid (some ("10.1/x"), some ("42")) none ("42")).1 = some ("10.1/x") ∧
    (resolve_doi_pmid (some ("10.1/x"), some ("42")) none ("42")).2 = some ("42") ∧
    (("42" : String) ≠ "") ∧
    (∃ pre t body,
      ("@article\x7bk,\n  title = \x7bT\x7d\n\x7d").toList = pre ++ '}' :: t ∧
      '}' ∉ t ∧
      append_doi_pmid_to_entry (some ("10.1/x"), some ("42")) none
          (("@article\x7bk,\n  title = \x7bT\x7d\n\x7d").toList) ("42") =
        body ++ '\n' :: ((fieldLine ("DOI") ("10.1/x") ++
          (if pmid_exists (("@article\x7bk,\n  title = \x7bT\x7d\n\x7d").toList) then []
           else fieldLine ("pmid") ("42"))) ++ '}' :: t) ∧
      body.getLast? = some ',' ∧
      (if (rstrip pre).getLast? = some ',' then body = rstrip pre
       else body = rstrip pre ++ [','])) :=
  ⟨by decide, rfl, rfl, by decide,
    claim_C8_textual_patch (some ("10.1/x"), some ("42")) none
      (("@article\x7bk,\n  title = \x7bT\x7d\n\x7d").toList) ("42") ("10.1/x")
      (by decide) rfl rfl (by decide)⟩

/-! ## Order lemmas for the Python string comparison -/

/-- `pyStrLt` is irreflexive. -/
theorem pyStrLt_irrefl : ∀ l : List Char, pyStrLt l l = false := by
  intro l
  induction l with
  | nil => rfl
  | cons c cs ih =>
    unfold pyStrLt
    rw [if_neg (by omega), if_neg (by omega)]
    exact ih

/-- `pyStrLt` is transitive. -/
theorem pyStrLt_trans : ∀ a b c : List Char,
    pyStrLt a b = true → pyStrLt b c = true → pyStrLt a c = true := by
  intro a
  induction a with
  | nil =>
    intro b c hab hbc
    cases b with
    | nil => cases hab
    | cons y ys =>
      cases c with
      | nil => cases hbc
      | cons z zs => rfl
  | cons x xs ih =>
    intro b c hab hbc
    cases b with
    | nil => cases hab
    | cons y ys =>
      cases c with
      | nil => cases hbc
      | cons z zs =>
        unfold pyStrLt at hab hbc ⊢
        split at hab
        · split at hbc
          · rw [if_pos (by omega)]
          · split at hbc
            · cases hbc
            · rw [if_pos (by omega)]
        · split at hab
          · cases hab
          · split at hbc
            · rw [if_pos (by omega)]
            · split at hbc
              · cases hbc
              · rw [if_neg (by omega), if_neg (by omega)]
                exact ih ys zs hab hbc

/-- From `a < b` and `¬(c < b)` conclude `a < c` (totality of the string
order: `¬(c < b)` means `b ≤ c`). -/
theorem pyStrLt_lt_of_not_lt : ∀ a b c : List Char,
    pyStrLt a b = true → pyStrLt c b = false → pyStrLt a c = true := by
  intro a
  induction a with
  | nil =>
    intro b c hab hcb
    cases b with
    | nil => cases hab
    | cons y ys =>
      cases c with
      | nil => cases hcb
      | cons z zs => rfl
  | cons x xs ih =>
    intro b c hab hcb
    cases b with
    | nil => cases hab
    | cons y ys =>
      cases c with
      | nil => cases hcb
      | cons z zs =>
        unfold pyStrLt at hab hcb ⊢
        split at hab
        · split at hcb
          · cases hcb
          · split at hcb
            · rw [if_pos (by omega)]
            · rw [if_pos (by omega)]
        · split at hab
          · cases hab
          · split at hcb
            · cases hcb
            · split at hcb
              · rw [if_pos (by omega)]
              · rw [if_neg (by omega), if_neg (by omega)]
                exact ih ys zs hab hcb

/-- From `a < b` and `¬(a < c)` conclude `c < b` (totality: `¬(a < c)` means
`c ≤ a`). -/
theorem pyStrLt_lt_of_not_lt_left : ∀ a b c : List Char,
    pyStrLt a b = true → pyStrLt a c = false → pyStrLt c b = true := by
  intro a
  induction a with
  | nil =>
    intro b c hab hac
    cases b with
    | nil => cases hab
    | cons y ys =>
      cases c with
      | nil => rfl
      | cons z zs => cases hac
  | cons x xs ih =>
    intro b c hab hac
    cases b with
    | nil => cases hab
    | cons y ys =>
      cases c with
      | nil => rfl
      | cons z zs =>
        unfold pyStrLt at hab hac ⊢
        split at hab
        · split at hac
          · cases hac
          · split at hac
            · rw [if_pos (by omega)]
            · rw [if_pos (by omega)]
        · split at hab
          · cases hab
          · split at hac
            · cases hac
            · split at hac
              · rw [if_pos (by omega)]
              · rw [if_neg (by omega), if_neg (by omega)]
                exact ih ys zs hab hac

/-- `yearLt` is irreflexive. -/
theorem yearLt_irrefl (e : Entry) : yearLt e e = false := by
  unfold yearLt
  cases h : Entry.get e ("year") with
  | none => rfl
  | some x => exact pyStrLt_irrefl x.toList

/-- `yearLt` is transitive. -/
theorem yearLt_trans (a b c : Entry) (hab : yearLt a b = true)
    (hbc : yearLt b c = true) : yearLt a c = true := by
  unfold yearLt at hab hbc ⊢
  cases ha : Entry.get a ("year") with
  | none => rw [ha] at hab; cases hab
  | some x =>
    cases hb : Entry.get b ("year") with
    | none => rw [ha, hb] at hab; cases hab
    | some y =>
      cases hc : Entry.get c ("year") with
      | none => rw [hb, hc] at hbc; cases hbc
      | some z =>
        rw [ha, hb] at hab
        rw [hb, hc] at hbc
        exact pyStrLt_trans _ _ _ hab hbc

/-- From `a < b` and `¬(c < b)`, with `c` carrying a year, conclude
`a < c`. -/
theorem yearLt_lt_of_not_lt (a b c : Entry) (hab : yearLt a b = true)
    (hcb : yearLt c b = false) (hc : hasYear c = true) : yearLt a c = true := by
  unfold hasYear at hc
  unfold yearLt at hab hcb ⊢
  cases ha : Entry.get a ("year") with
  | none => rw [ha] at hab; cases hab
  | some x =>
    cases hb : Entry.get b ("year") with
    | none => rw [ha, hb] at hab; cases hab
    | some y =>
      cases hcy : Entry.get c ("year") with
      | none => rw [hcy] at hc; cases hc
      | some z =>
        rw [ha, hb] at hab
        rw [hcy, hb] at hcb
        exact pyStrLt_lt_of_not_lt _ _ _ hab hcb

/-- From `a < b` and `¬(a < c)`, with `c` carrying a year, conclude
`c < b`. -/
theorem yearLt_lt_of_not_lt_left (a b c : Entry) (hab : yearLt a b = true)
    (hac : yearLt a c = false) (hc : hasYear c = true) : yearLt c b = true := by
  unfold hasYear at hc
  unfold yearLt at hab hac ⊢
  cases ha : Entry.get a ("year") with
  | none => rw [ha] at hab; cases hab
  | some x =>
    cases hb : Entry.get b ("year") with
    | none => rw [ha, hb] at hab; cases hab
    | some y =>
      cases hcy : Entry.get c ("year") with
      | none => rw [hcy] at hc; cases hc
      | some z =>
        rw [ha, hb] at hab
        rw [ha, hcy] at hac
        exact pyStrLt_lt_of_not_lt_left _ _ _ hab hac

/-- The stable-sort head is a member of the group. -/
theorem firstMinByYear_mem : ∀ (es : List Entry) (e : Entry),
    firstMinByYear e es ∈ e :: es := by
  intro es
  induction es with
  | nil => intro e; exact List.mem_singleton.mpr rfl
  | cons x es ih =>
    intro e
    have h := ih (if yearLt x e then x else e)
    have hsub : (if yearLt x e then x else e) :: es ⊆ e :: x :: es := by
      intro z hz
      rcases List.mem_cons.mp hz with rfl | hz2
      · by_cases hxe : yearLt x e = true
        · rw [if_pos hxe]; exact List.mem_cons_of_mem e (List.mem_cons_self x es)
        · rw [if_neg hxe]; exact List.mem_cons_self e (x :: es)
      · exact List.mem_cons_of_mem e (List.mem_cons_of_mem x hz2)
    exact hsub h

/-- Keeping years across the first fold step. -/
theorem fold_step_years (x e : Entry) (es : List Entry)
    (hy : ∀ z ∈ e :: x :: es, hasYear z = true) :
    ∀ z ∈ (if yearLt x e then x else e) :: es, hasYear z = true := by
  intro z hz
  rcases List.mem_cons.mp hz with rfl | hz2
  · by_cases hxe : yearLt x e = true
    · rw [if_pos hxe]
      exact hy x (List.mem_cons_of_mem e (List.mem_cons_self x es))
    · rw [if_neg hxe]
      exact hy e (List.mem_cons_self e (x :: es))
  · exact hy z (List.mem_cons_of_mem e (List.mem_cons_of_mem x hz2))

/-- When every group member carries a year, no member is strictly earlier
than the stable-sort head. -/
theorem firstMinByYear_min : ∀ (es : List Entry) (e : Entry),
    (∀ z ∈ e :: es, hasYear z = true) →
    ∀ y ∈ e :: es, yearLt y (firstMinByYear e es) = false := by
  intro es
  induction es with
  | nil =>
    intro e _ y hmem
    rcases List.mem_cons.mp hmem with rfl | h
    · exact yearLt_irrefl y
    · cases h
  | cons x es ih =>
    intro e hy y hmem
    have hyb := fold_step_years x e es hy
    have hmin := ih (if yearLt x e then x else e) hyb
    rcases List.mem_cons.mp hmem with rfl | hmem2
    · by_cases hxe : yearLt x y = true
      · have hxr : yearLt x (firstMinByYear (if yearLt x y then x else y) es) = false :=
          hmin x (by rw [if_pos hxe]; exact List.mem_cons_self x es)
        cases hEr : yearLt y (firstMinByYear (if yearLt x y then x else y) es) with
        | false => exact hEr
        | true =>
          have := yearLt_trans x y (firstMinByYear (if yearLt x y then x else y) es) hxe hEr
          rw [hxr] at this
          cases this
      · exact hmin y (by rw [if_neg hxe]; exact List.mem_cons_self y es)
    · rcases List.mem_cons.mp hmem2 with rfl | hmem3
      · by_cases hxe : yearLt y e = true
        · exact hmin y (by rw [if_pos hxe]; exact List.mem_cons_self y es)
        · have her : yearLt e (firstMinByYear (if yearLt y e then y else e) es) = false :=
            hmin e (by rw [if_neg hxe]; exact List.mem_cons_self e es)
          cases hXr : yearLt y (firstMinByYear (if yearLt y e then y else e) es) with
          | false => exact hXr
          | true =>
            have hxe2 : yearLt y e = true :=
              yearLt_lt_of_not_lt y (firstMinByYear (if yearLt y e then y else e) es) e
                hXr her (hy e (List.mem_cons_self e (y :: es)))
            exact absurd hxe2 hxe
      · exact hmin y (List.mem_cons_of_mem (if yearLt x e then x else e) hmem3)

/-- Unfolding of the stable-sort head over the first element. -/
theorem firstMinByYear_cons (e x : Entry) (es : List Entry) :
    firstMinByYear e (x :: es) = firstMinByYear (if yearLt x e then x else e) es := rfl

/-- The stable-sort head is the first-encountered minimum: the group splits
around it with every earlier member strictly later-year. -/
theorem firstMinByYear_first : ∀ (es : List Entry) (e : Entry),
    (∀ z ∈ e :: es, hasYear z = true) →
    ∃ p q, e :: es = p ++ (firstMinByYear e es) :: q ∧
      ∀ z ∈ p, yearLt (firstMinByYear e es) z = true := by
  intro es
  induction es with
  | nil =>
    intro e _
    exact ⟨[], [], rfl, by intro z hz; cases hz⟩
  | cons x es ih =>
    intro e hy
    have hyb := fold_step_years x e es hy
    obtain ⟨p, q, hpq, hplt⟩ := ih (if yearLt x e then x else e) hyb
    rw [firstMinByYear_cons e x es]
    by_cases hxe : yearLt x e = true
    · rw [if_pos hxe] at hpq hplt ⊢
      have hxr : yearLt x (firstMinByYear x es) = false := by
        have := firstMinByYear_min es (if yearLt x e then x else e) hyb x
          (by rw [if_pos hxe]; exact List.mem_cons_self x es)
        rw [if_pos hxe] at this
        exact this
      have hrY : hasYear (firstMinByYear x es) = true := by
        have := hyb (firstMinByYear (if yearLt x e then x else e) es)
          (firstMinByYear_mem es (if yearLt x e then x else e))
        rw [if_pos hxe] at this
        exact this
      have hre : yearLt (firstMinByYear x es) e = true :=
        yearLt_lt_of_not_lt_left x e (firstMinByYear x es) hxe hxr hrY
      refine ⟨e :: p, q, ?_, ?_⟩
      · rw [List.cons_append, ← hpq]
      · intro z hz
        rcases List.mem_cons.mp hz with rfl | hz2
        · exact hre
        · exact hplt z hz2
    · rw [if_neg hxe] at hpq hplt ⊢
      cases p with
      | nil =>
        rw [List.nil_append] at hpq
        have h1 : e = firstMinByYear e es := by injection hpq
        refine ⟨[], x :: es, ?_, by intro z hz; cases hz⟩
        rw [List.nil_append, ← h1]
      | cons w ps =>
        rw [List.cons_append] at hpq
        have h1 : w = e := by injection hpq with ha _; exact ha.symm
        have h2 : es = ps ++ (firstMinByYear e es) :: q := by injection hpq
        have hre : yearLt (firstMinByYear e es) e = true := by
          have := hplt w (List.mem_cons_self w ps)
          rw [h1] at this
          exact this
        have hxe2 : yearLt x e = false := by
          cases hv : yearLt x e with
          | false => rfl
          | true => exact absurd hv hxe
        have hrx : yearLt (firstMinByYear e es) x = true :=
          yearLt_lt_of_not_lt (firstMinByYear e es) e x
            hre hxe2 (hy x (List.mem_cons_of_mem e (List.mem_cons_self x es)))
        refine ⟨e :: x :: ps, q, ?_, ?_⟩
        · rw [List.cons_append, List.cons_append, ← h2]
        · intro z hz
          rcases List.mem_cons.mp hz with rfl | hz2
          · exact hre
          · rcases List.mem_cons.mp hz2 with rfl | hz3
            · exact hrx
            · exact hplt z (List.mem_cons_of_mem w hz3)

/-- On a group of two or more members all carrying years, the year fallback
succeeds and returns the first-encountered member with the minimal year. -/
theorem selectByYear_ok (es : List Entry) (h2 : 2 ≤ es.length)
    (hy : ∀ x ∈ es, hasYear x = true) :
    ∃ r p q, selectByYear es = Except.ok r ∧ es = p ++ r :: q ∧
      (∀ x ∈ es, yearLt x r = false) ∧ (∀ x ∈ p, yearLt r x = true) := by
  match es with
  | [] => simp at h2
  | [e] => simp at h2
  | a :: b :: rest =>
    have hall : (a :: b :: rest).all hasYear = true :=
      List.all_eq_true.mpr (fun x hx => hy x hx)
    obtain ⟨p, q, hpq, hplt⟩ := firstMinByYear_first (b :: rest) a hy
    refine ⟨firstMinByYear a (b :: rest), p, q, ?_, hpq,
      firstMinByYear_min (b :: rest) a hy, hplt⟩
    show (if (a :: b :: rest).all hasYear = true
        then Except.ok (firstMinByYear a (b :: rest))
        else Except.error ("TypeError")) = Except.ok (firstMinByYear a (b :: rest))
    rw [if_pos hall]

/-- On a group of two or more members where some member lacks a year, the
year fallback raises `TypeError`. -/
theorem selectByYear_missing (es : List Entry) (h2 : 2 ≤ es.length)
    (hy : ∃ x ∈ es, hasYear x = false) :
    selectByYear es = Except.error ("TypeError") := by
  match es with
  | [] => simp at h2
  | [e] => simp at h2
  | a :: b :: rest =>
    obtain ⟨x, hx, hfx⟩ := hy
    have hall : ¬((a :: b :: rest).all hasYear = true) := by
      intro hall
      rw [List.all_eq_true.mp hall x hx] at hfx
      cases hfx
    show (if (a :: b :: rest).all hasYear = true
        then Except.ok (firstMinByYear a (b :: rest))
        else Except.error ("TypeError")) = Except.error ("TypeError")
    rw [if_neg hall]

/-- A successful year fallback returns a member of the group. -/
theorem selectByYear_mem (es : List Entry) (r : Entry) :
    selectByYear es = Except.ok r → r ∈ es := by
  match es with
  | [] => intro h; cases h
  | [e] =>
    intro h
    have he : e = r := by injection h
    rw [← he]
    exact List.mem_singleton.mpr rfl
  | a :: b :: rest =>
    intro h
    have h2 : (if (a :: b :: rest).all hasYear = true
        then Except.ok (firstMinByYear a (b :: rest))
        else Except.error ("TypeError")) = Except.ok r := h
    by_cases hall : (a :: b :: rest).all hasYear = true
    · rw [if_pos hall] at h2
      have he : firstMinByYear a (b :: rest) = r := by injection h2
      rw [← he]
      exact firstMinByYear_mem (b :: rest) a
    · rw [if_neg hall] at h2
      cases h2

/-- A singleton group resolves to its sole member. -/
theorem resolveGroup_singleton (fT : Option String → Except String (Option String))
    (k : Option String) (e : Entry) : resolveGroup fT k [e] = Except.ok e := rfl

/-- A successful group resolution returns a member of the group. -/
theorem resolveGroup_mem (fT : Option String → Except String (Option String))
    (k : Option String) (es : List Entry) (r : Entry) :
    resolveGroup fT k es = Except.ok r → r ∈ es := by
  match es with
  | [e] =>
    intro h
    have he : e = r := by injection h
    rw [← he]
    exact List.mem_singleton.mpr rfl
  | [] =>
    intro h
    unfold resolveGroup at h
    cases hf : fetch_title fT k with
    | error m => rw [hf] at h; cases h
    | ok o =>
      cases o with
      | none => rw [hf] at h; cases h
      | some t =>
        rw [hf] at h
        have h3 : (match ([] : List Entry).filter
              (fun e => Entry.get e ("title") == some t) with
            | m :: _ => Except.ok m
            | [] => selectByYear ([] : List Entry)) = Except.ok r := h
        rw [List.filter_nil] at h3
        cases h3
  | a :: b :: rest =>
    intro h
    unfold resolveGroup at h
    cases hf : fetch_title fT k with
    | error m => rw [hf] at h; cases h
    | ok o =>
      cases o with
      | none =>
        rw [hf] at h
        exact selectByYear_mem (a :: b :: rest) r h
      | some t =>
        rw [hf] at h
        have h3 : (match (a :: b :: rest).filter
              (fun e => Entry.get e ("title") == some t) with
            | m :: _ => Except.ok m
            | [] => selectByYear (a :: b :: rest)) = Except.ok r := h
        cases hfil : (a :: b :: rest).filter (fun e => Entry.get e ("title") == some t) with
        | nil =>
          rw [hfil] at h3
          exact selectByYear_mem (a :: b :: rest) r h3
        | cons m ms =>
          rw [hfil] at h3
          have hm : m = r := by injection h3
          have hmf : m ∈ (a :: b :: rest).filter
              (fun e => Entry.get e ("title") == some t) := by
            rw [hfil]
            exact List.mem_cons_self m ms
          rw [← hm]
          exact (List.mem_filter.mp hmf).1

/-- Membership in the deduplicated key list. -/
theorem mem_dedupKeys (a : Option String) : ∀ l, a ∈ dedupKeys l ↔ a ∈ l := by
  intro l
  induction l with
  | nil => simp [dedupKeys]
  | cons k ks ih =>
    unfold dedupKeys
    by_cases hak : a = k
    · simp [hak]
    · simp only [List.mem_cons, List.mem_filter, ih]
      constructor
      · intro h
        rcases h with rfl | ⟨h2, _⟩
        · exact Or.inl rfl
        · exact Or.inr h2
      · intro h
        rcases h with rfl | h2
        · exact Or.inl rfl
        · exact Or.inr ⟨h2, by simpa using hak⟩

/-- The deduplicated key list has no duplicates. -/
theorem dedupKeys_nodup : ∀ l : List (Option String), (dedupKeys l).Nodup := by
  intro l
  induction l with
  | nil => exact List.nodup_nil
  | cons k ks ih =>
    unfold dedupKeys
    rw [List.nodup_cons]
    refine ⟨?_, ih.filter (fun x => !(x == k))⟩
    intro hmem
    have := (List.mem_filter.mp hmem).2
    simp at this

/-- Removing the occurrences of an absent value leaves a list unchanged. -/
theorem filter_ne_of_not_mem (a : Option String) (l : List (Option String))
    (h : a ∉ l) : l.filter (fun x => !(x == a)) = l := by
  rw [List.filter_eq_self]
  intro x hx
  have hne : x ≠ a := fun hxa => h (hxa ▸ hx)
  simpa using hne

/-- Removing the occurrences of a present value strictly shrinks a list. -/
theorem filter_ne_length_lt (a : Option String) :
    ∀ l : List (Option String), a ∈ l →
      (l.filter (fun x => !(x == a))).length < l.length := by
  intro l
  induction l with
  | nil => intro h; cases h
  | cons b bs ih =>
    intro h
    rw [List.filter_cons]
    by_cases hba : b = a
    · have : (b == a) = true := by simpa using hba
      rw [this]
      simp only [Bool.not_true, Bool.false_eq_true, if_false, List.length_cons]
      exact Nat.lt_succ_of_le (List.length_filter_le (fun x => !(x == a)) bs)
    · have hb : (b == a) = false := by simpa using hba
      rw [hb]
      simp only [Bool.not_false, if_true, List.length_cons]
      have hmem : a ∈ bs := by
        rcases List.mem_cons.mp h with rfl | h2
        · exact absurd rfl hba
        · exact h2
      exact Nat.succ_lt_succ (ih hmem)

/-- The deduplicated key list is never longer than the original. -/
theorem dedupKeys_length_le : ∀ l : List (Option String),
    (dedupKeys l).length ≤ l.length := by
  intro l
  induction l with
  | nil => exact Nat.le_refl 0
  | cons k ks ih =>
    unfold dedupKeys
    rw [List.length_cons]
    exact Nat.succ_le_succ
      (Nat.le_trans (List.length_filter_le (fun x => !(x == k)) (dedupKeys ks)) ih)

/-- Key deduplication preserves the length exactly when the keys were already
pairwise distinct. -/
theorem dedupKeys_length_eq_iff : ∀ l : List (Option String),
    (dedupKeys l).length = l.length ↔ l.Nodup := by
  intro l
  induction l with
  | nil => simp [dedupKeys]
  | cons k ks ih =>
    unfold dedupKeys
    rw [List.length_cons, List.length_cons, List.nodup_cons]
    constructor
    · intro h
      have hlen : ((dedupKeys ks).filter (fun x => !(x == k))).length = ks.length :=
        Nat.succ_injective h
      have hle1 : ((dedupKeys ks).filter (fun x => !(x == k))).length ≤
          (dedupKeys ks).length := List.length_filter_le _ _
      have hle2 : (dedupKeys ks).length ≤ ks.length := dedupKeys_length_le ks
      have hdk : (dedupKeys ks).length = ks.length := by omega
      have hnk : k ∉ dedupKeys ks := by
        intro hmem
        have := filter_ne_length_lt k (dedupKeys ks) hmem
        omega
      exact ⟨fun hmem => hnk ((mem_dedupKeys k ks).mpr hmem), ih.mp hdk⟩
    · rintro ⟨hnk, hnd⟩
      have hnk2 : k ∉ dedupKeys ks := fun hmem => hnk ((mem_dedupKeys k ks).mp hmem)
      rw [filter_ne_of_not_mem k (dedupKeys ks) hnk2, ih.mpr hnd]

/-- Deduplication of a duplicate-free key list is the identity. -/
theorem dedupKeys_eq_self_of_nodup : ∀ l : List (Option String),
    l.Nodup → dedupKeys l = l := by
  intro l
  induction l with
  | nil => intro _; rfl
  | cons k ks ih =>
    intro hnd
    rw [List.nodup_cons] at hnd
    unfold dedupKeys
    rw [ih hnd.2, filter_ne_of_not_mem k ks hnd.1]

/-- Members of a group carry the group key. -/
theorem groupOf_mem_key (entries : List Entry) (k : Option String) (e : Entry)
    (h : e ∈ groupOf entries k) : keyOf e = k := by
  have := (List.mem_filter.mp h).2
  simpa using this

/-- `resolveAll` only looks at the entry list through `groupOf` at its
keys. -/
theorem resolveAll_congr (fT : Option String → Except String (Option String))
    (es1 es2 : List Entry) : ∀ ks : List (Option String),
    (∀ k ∈ ks, groupOf es1 k = groupOf es2 k) →
    resolveAll fT es1 ks = resolveAll fT es2 ks := by
  intro ks
  induction ks with
  | nil => intro _; rfl
  | cons k ks ih =>
    intro h
    unfold resolveAll
    rw [h k (List.mem_cons_self k ks),
      ih (fun k2 hk2 => h k2 (List.mem_cons_of_mem k hk2))]

/-- A successful `resolveAll` returns one representative per key. -/
theorem resolveAll_length (fT : Option String → Except String (Option String))
    (entries : List Entry) : ∀ (ks : List (Option String)) (out : List Entry),
    resolveAll fT entries ks = Except.ok out → out.length = ks.length := by
  intro ks
  induction ks with
  | nil =>
    intro out h
    have : ([] : List Entry) = out := by injection h
    rw [← this]
    rfl
  | cons k ks ih =>
    intro out h
    unfold resolveAll at h
    cases hr : resolveGroup fT k (groupOf entries k) with
    | error m => rw [hr] at h; cases h
    | ok r =>
      rw [hr] at h
      cases ha : resolveAll fT entries ks with
      | error m => rw [ha] at h; cases h
      | ok rs =>
        rw [ha] at h
        have : r :: rs = out := by injection h
        rw [← this, List.length_cons, ih rs ha, List.length_cons]

/-- A successful `resolveAll` contains the representative of every key. -/
theorem resolveAll_mem (fT : Option String → Except String (Option String))
    (entries : List Entry) : ∀ (ks : List (Option String)) (out : List Entry)
    (k : Option String) (r : Entry),
    resolveAll fT entries ks = Except.ok out → k ∈ ks →
    resolveGroup fT k (groupOf entries k) = Except.ok r → r ∈ out := by
  intro ks
  induction ks with
  | nil => intro out k r _ hk; cases hk
  | cons k2 ks ih =>
    intro out k r h hk hr
    unfold resolveAll at h
    cases hr2 : resolveGroup fT k2 (groupOf entries k2) with
    | error m => rw [hr2] at h; cases h
    | ok r2 =>
      rw [hr2] at h
      cases ha : resolveAll fT entries ks with
      | error m => rw [ha] at h; cases h
      | ok rs =>
        rw [ha] at h
        have hout : r2 :: rs = out := by injection h
        rcases List.mem_cons.mp hk with rfl | hk2
        · rw [hr] at hr2
          have : r2 = r := by injection hr2.symm
          rw [← hout, this]
          exact List.mem_cons_self r rs
        · rw [← hout]
          exact List.mem_cons_of_mem r2 (ih rs k r ha hk2 hr)

/-- The keys of a successful `resolveAll` output are exactly the visited
keys, in order. -/
theorem resolveAll_keys (fT : Option String → Except String (Option String))
    (entries : List Entry) : ∀ (ks : List (Option String)) (out : List Entry),
    resolveAll fT entries ks = Except.ok out → out.map keyOf = ks := by
  intro ks
  induction ks with
  | nil =>
    intro out h
    have : ([] : List Entry) = out := by injection h
    rw [← this]
    rfl
  | cons k ks ih =>
    intro out h
    unfold resolveAll at h
    cases hr : resolveGroup fT k (groupOf entries k) with
    | error m => rw [hr] at h; cases h
    | ok r =>
      rw [hr] at h
      cases ha : resolveAll fT entries ks with
      | error m => rw [ha] at h; cases h
      | ok rs =>
        rw [ha] at h
        have hout : r :: rs = out := by injection h
        have hkey : keyOf r = k :=
          groupOf_mem_key entries k r (resolveGroup_mem fT k (groupOf entries k) r hr)
        rw [← hout, List.map_cons, hkey, ih rs ha]

/-- Unfolding of `dedupKeys` over the first key. -/
theorem dedupKeys_cons (k : Option String) (ks : List (Option String)) :
    dedupKeys (k :: ks) = k :: (dedupKeys ks).filter (fun x => !(x == k)) := rfl

/-- Unfolding of `resolveAll` over the first key. -/
theorem resolveAll_cons (fT : Option String → Except String (Option String))
    (entries : List Entry) (k : Option String) (ks : List (Option String)) :
    resolveAll fT entries (k :: ks) =
      match resolveGroup fT k (groupOf entries k) with
      | Except.error m => Except.error m
      | Except.ok r =>
        match resolveAll fT entries ks with
        | Except.error m => Except.error m
        | Except.ok rs => Except.ok (r :: rs) := rfl

/-- The keys of a successful `remove_duplicates` output are the group keys,
hence pairwise distinct. -/
theorem remove_duplicates_keys_nodup (fT : Option String → Except String (Option String))
    (entries out : List Entry) (h : remove_duplicates fT entries = Except.ok out) :
    (out.map keyOf).Nodup := by
  rw [resolveAll_keys fT entries (groupKeys entries) out h]
  exact dedupKeys_nodup (entries.map keyOf)

/-- On an entry list whose `pmid` values are already pairwise distinct,
`remove_duplicates` is the identity: every group is a singleton. -/
theorem remove_duplicates_nodup_id (fT : Option String → Except String (Option String)) :
    ∀ entries : List Entry, (entries.map keyOf).Nodup →
      remove_duplicates fT entries = Except.ok entries := by
  intro entries
  induction entries with
  | nil => intro _; rfl
  | cons e es ih =>
    intro hnd
    rw [List.map_cons, List.nodup_cons] at hnd
    obtain ⟨hke, hnd2⟩ := hnd
    have hgk : groupKeys (e :: es) = keyOf e :: groupKeys es := by
      unfold groupKeys
      rw [List.map_cons, dedupKeys_cons,
        filter_ne_of_not_mem (keyOf e) (dedupKeys (es.map keyOf))
          (fun hmem => hke ((mem_dedupKeys (keyOf e) (es.map keyOf)).mp hmem))]
    have hg : groupOf (e :: es) (keyOf e) = [e] := by
      unfold groupOf
      rw [List.filter_cons]
      have hself : (keyOf e == keyOf e) = true := by simp
      rw [hself]
      simp only [if_true]
      have h0 : es.filter (fun e2 => keyOf e2 == keyOf e) = [] := by
        rw [List.filter_eq_nil_iff]
        intro a ha
        have hne : keyOf a ≠ keyOf e := by
          intro heq
          exact hke (heq ▸ List.mem_map_of_mem keyOf ha)
        simpa using hne
      rw [h0]
    have hcongr : resolveAll fT (e :: es) (groupKeys es) =
        resolveAll fT es (groupKeys es) := by
      apply resolveAll_congr
      intro k hk
      unfold groupOf
      rw [List.filter_cons]
      have hkne : (keyOf e == k) = false := by
        have hkm : k ∈ es.map keyOf := (mem_dedupKeys k (es.map keyOf)).mp hk
        have hne : keyOf e ≠ k := fun heq => hke (heq ▸ hkm)
        simpa using hne
      rw [hkne]
      simp only [Bool.false_eq_true, if_false]
    have ih2 : resolveAll fT es (groupKeys es) = Except.ok es := ih hnd2
    unfold remove_duplicates
    rw [hgk, resolveAll_cons, hg, resolveGroup_singleton, hcongr, ih2]

/-- C7: duplicate resolution is idempotent — applying `remove_duplicates` to
its own (successful) output returns that output unchanged, because every
group of the output is a singleton. -/
theorem claim_C7_idempotent (fT : Option String → Except String (Option String))
    (R out : List Entry) (h : remove_duplicates fT R = Except.ok out) :
    remove_duplicates fT out = Except.ok out :=
  remove_duplicates_nodup_id fT out (remove_duplicates_keys_nodup fT R out h)

/-- Witness for C7: resolving a two-member group keeps the 2019 record, and
resolving the result again leaves it unchanged. -/
theorem claim_C7_witness :
    remove_duplicates (fun _ => Except.ok none)
      [[("pmid", "555"), ("year", "2021")], [("pmid", "555"), ("year", "2019")]] =
      Except.ok [[("pmid", "555"), ("year", "2019")]] ∧
    remove_duplicates (fun _ => Except.ok none)
      [[("pmid", "555"), ("year", "2019")]] =
      Except.ok [[("pmid", "555"), ("year", "2019")]] :=
  ⟨rfl, claim_C7_idempotent (fun _ => Except.ok none)
    [[("pmid", "555"), ("year", "2021")], [("pmid", "555"), ("year", "2019")]]
    [[("pmid", "555"), ("year", "2019")]] rfl⟩

/-- C6 counterexample: two records that both lack a `pmid` field share the
group key `None`, merge, and shrink the output, although the non-empty
persistent-identifier values of the input (there are none) are vacuously
pairwise distinct — refuting the claimed "equality iff" and the "empty values
never merge" reading. -/
theorem claim_C6_counterexample :
    remove_duplicates (fun _ => Except.ok none)
      [[("title", "A"), ("year", "2019")], [("title", "B"), ("year", "2021")]] =
      Except.ok [[("title", "A"), ("year", "2019")]] ∧
    keyOf [("title", "A"), ("year", "2019")] = none ∧
    keyOf [("title", "B"), ("year", "2021")] = none ∧
    ([[("title", "A"), ("year", "2019")], [("title", "B"), ("year", "2021")]] :
      List Entry).length = 2 ∧
    ([[("title", "A"), ("year", "2019")]] : List Entry).length = 1 :=
  ⟨rfl, rfl, rfl, rfl, rfl⟩

/-- C6 (amended): the size of a successful resolution output is at most the
input size, with equality iff the `pmid` key values of the records — where a
missing field counts as the value `None` and an empty field as the value
`""`, both of which do group and merge — are pairwise distinct. -/
theorem claim_C6_output_size (fT : Option String → Except String (Option String))
    (R out : List Entry) (h : remove_duplicates fT R = Except.ok out) :
    out.length ≤ R.length ∧ (out.length = R.length ↔ (R.map keyOf).Nodup) := by
  have hlen : out.length = (dedupKeys (R.map keyOf)).length :=
    resolveAll_length fT R (groupKeys R) out h
  have hmap : (R.map keyOf).length = R.length := List.length_map R keyOf
  constructor
  · rw [hlen]
    exact le_trans (dedupKeys_length_le (R.map keyOf)) (le_of_eq hmap)
  · rw [hlen, ← hmap]
    exact dedupKeys_length_eq_iff (R.map keyOf)

/-- Witness for C6: two distinct `pmid` values give a full-size output. -/
theorem claim_C6_witness :
    remove_duplicates (fun _ => Except.ok none)
      [[("pmid", "1")], [("pmid", "2")]] =
      Except.ok [[("pmid", "1")], [("pmid", "2")]] ∧
    (([[("pmid", "1")], [("pmid", "2")]] : List Entry).length ≤
      ([[("pmid", "1")], [("pmid", "2")]] : List Entry).length ∧
     (([[("pmid", "1")], [("pmid", "2")]] : List Entry).length =
        ([[("pmid", "1")], [("pmid", "2")]] : List Entry).length ↔
      (([[("pmid", "1")], [("pmid", "2")]] : List Entry).map keyOf).Nodup)) :=
  ⟨rfl, claim_C6_output_size (fun _ => Except.ok none)
    [[("pmid", "1")], [("pmid", "2")]] [[("pmid", "1")], [("pmid", "2")]] rfl⟩

/-- C1 counterexample: two records with no `pmid` field do not form singleton
groups — they share the group key `None`, are merged, and only one of them
survives resolution, so not every such record appears in the output. -/
theorem claim_C1_counterexample :
    remove_duplicates (fun _ => Except.ok none)
      [[("title", "A"), ("year", "2019")], [("title", "B"), ("year", "2021")]] =
      Except.ok [[("title", "A"), ("year", "2019")]] ∧
    Entry.get [("title", "B"), ("year", "2021")] ("pmid") = none ∧
    ([("title", "B"), ("year", "2021")] : Entry) ∉
      ([[("title", "A"), ("year", "2019")]] : List Entry) :=
  ⟨rfl, rfl, by decide⟩

/-- C1 (amended): a record whose `pmid` field is absent or empty is preserved
unchanged exactly when it is the only record carrying its (absent or empty)
`pmid` value — its group is then the singleton `[e]` and it appears in every
successful output, which holds at most one record per `pmid` value (so two or
more records sharing an absent, or sharing an empty, `pmid` are merged into
one representative). -/
theorem claim_C1_missing_pmid_preserved
    (fT : Option String → Except String (Option String)) (R out : List Entry)
    (e : Entry) (h : remove_duplicates fT R = Except.ok out)
    (hk : keyOf e = none ∨ keyOf e = some "")
    (hu : groupOf R (keyOf e) = [e]) :
    e ∈ out ∧ (out.map keyOf).Nodup := by
  have hmem : e ∈ R := by
    have h1 : e ∈ groupOf R (keyOf e) := by
      rw [hu]
      exact List.mem_singleton.mpr rfl
    exact (List.mem_filter.mp h1).1
  have hkin : keyOf e ∈ groupKeys R :=
    (mem_dedupKeys (keyOf e) (R.map keyOf)).mpr (List.mem_map_of_mem keyOf hmem)
  have hres : resolveGroup fT (keyOf e) (groupOf R (keyOf e)) = Except.ok e := by
    rw [hu]
    exact resolveGroup_singleton fT (keyOf e) e
  exact ⟨resolveAll_mem fT R (groupKeys R) out (keyOf e) e h hkin hres,
    remove_duplicates_keys_nodup fT R out h⟩

/-- Witness for C1: a sole record without a `pmid` survives resolution next
to a keyed record. -/
theorem claim_C1_witness :
    remove_duplicates (fun _ => Except.ok none)
      [[("title", "A")], [("pmid", "7"), ("title", "B")]] =
      Except.ok [[("title", "A")], [("pmid", "7"), ("title", "B")]] ∧
    (keyOf [("title", "A")] = none ∨ keyOf [("title", "A")] = some "") ∧
    groupOf [[("title", "A")], [("pmid", "7"), ("title", "B")]]
      (keyOf [("title", "A")]) = [[("title", "A")]] ∧
    (([("title", "A")] : Entry) ∈
        ([[("title", "A")], [("pmid", "7"), ("title", "B")]] : List Entry) ∧
      (([[("title", "A")], [("pmid", "7"), ("title", "B")]] : List Entry).map
        keyOf).Nodup) :=
  ⟨rfl, Or.inl rfl, rfl,
    claim_C1_missing_pmid_preserved (fun _ => Except.ok none)
      [[("title", "A")], [("pmid", "7"), ("title", "B")]]
      [[("title", "A")], [("pmid", "7"), ("title", "B")]]
      [("title", "A")] rfl (Or.inl rfl) rfl⟩

/-- Unfolding of `resolveGroup` on a group of two or more members. -/
theorem resolveGroup_cons2 (fT : Option String → Except String (Option String))
    (k : Option String) (a b : Entry) (rest : List Entry) :
    resolveGroup fT k (a :: b :: rest) =
      match fetch_title fT k with
      | Except.error m => Except.error m
      | Except.ok (some t) =>
        match (a :: b :: rest).filter (fun e => Entry.get e ("title") == some t) with
        | m :: _ => Except.ok m
        | [] => selectByYear (a :: b :: rest)
      | Except.ok none => selectByYear (a :: b :: rest) := rfl

/-- A non-empty filter output identifies the first element satisfying the
predicate and the prefix of failures before it. -/
theorem filter_eq_cons_split (p : Entry → Bool) :
    ∀ (l : List Entry) (m : Entry) (ms : List Entry), l.filter p = m :: ms →
      ∃ p1 q1, l = p1 ++ m :: q1 ∧ (∀ x ∈ p1, p x = false) ∧ p m = true := by
  intro l
  induction l with
  | nil => intro m ms h; cases h
  | cons a as ih =>
    intro m ms h
    rw [List.filter_cons] at h
    by_cases hpa : p a = true
    · rw [if_pos hpa] at h
      have ham : a = m := by injection h
      refine ⟨[], as, ?_, ?_, ?_⟩
      · rw [ham, List.nil_append]
      · intro x hx; cases hx
      · rw [← ham]; exact hpa
    · rw [if_neg hpa] at h
      obtain ⟨p1, q1, hsplit, hfail, hm⟩ := ih m ms h
      refine ⟨a :: p1, q1, by rw [List.cons_append, hsplit], ?_, hm⟩
      intro x hx
      rcases List.mem_cons.mp hx with rfl | hx2
      · cases hv : p x with
        | false => rfl
        | true => exact absurd hv hpa
      · exact hfail x hx2

/-- C2 (amended): for a group of two or more members, (i) when the
authoritative title lookup yields a (truthy) title and at least one member's
title equals it, the resolution keeps the first matching member in group
order — even if several members match and a later one has an earlier year;
(ii) when the title is unavailable or no member matches, then if every member
carries a `year` value the resolution keeps the first member with the
lexicographically smallest year string, and if some member lacks a year the
resolution raises an error (Python `TypeError` from sorting `None` keys)
instead of selecting a member. -/
theorem claim_C2_group_resolution (fT : Option String → Except String (Option String))
    (k : Option String) (es : List Entry) (hlen : 2 ≤ es.length) :
    (∀ t : String, fetch_title fT k = Except.ok (some t) →
      (∃ e ∈ es, Entry.get e ("title") = some t) →
      ∃ m p q, resolveGroup fT k es = Except.ok m ∧ es = p ++ m :: q ∧
        Entry.get m ("title") = some t ∧
        ∀ x ∈ p, ¬(Entry.get x ("title") = some t)) ∧
    ((fetch_title fT k = Except.ok none ∨
      (∃ t : String, fetch_title fT k = Except.ok (some t) ∧
        ∀ e ∈ es, ¬(Entry.get e ("title") = some t))) →
      ((∀ e ∈ es, hasYear e = true) →
        ∃ r p q, resolveGroup fT k es = Except.ok r ∧ es = p ++ r :: q ∧
          (∀ x ∈ es, yearLt x r = false) ∧ (∀ x ∈ p, yearLt r x = true)) ∧
      ((∃ e ∈ es, hasYear e = false) →
        ∃ msg, resolveGroup fT k es = Except.error msg)) := by
  match es, hlen with
  | a :: b :: rest, _ =>
    constructor
    · intro t ht hex
      have heq : resolveGroup fT k (a :: b :: rest) =
          (match (a :: b :: rest).filter (fun e => Entry.get e ("title") == some t) with
           | m :: _ => Except.ok m
           | [] => selectByYear (a :: b :: rest)) := by
        rw [resolveGroup_cons2, ht]
      obtain ⟨e0, he0, hte0⟩ := hex
      cases hfil : (a :: b :: rest).filter (fun e => Entry.get e ("title") == some t) with
      | nil =>
        have : e0 ∈ (a :: b :: rest).filter (fun e => Entry.get e ("title") == some t) :=
          List.mem_filter.mpr ⟨he0, by simp [hte0]⟩
        rw [hfil] at this
        cases this
      | cons m ms =>
        obtain ⟨p1, q1, hsplit, hfail, hm⟩ :=
          filter_eq_cons_split (fun e => Entry.get e ("title") == some t)
            (a :: b :: rest) m ms hfil
        refine ⟨m, p1, q1, ?_, hsplit, by simpa using hm, ?_⟩
        · rw [heq, hfil]
        · intro x hx hxt
          have := hfail x hx
          rw [hxt] at this
          simp at this
    · intro hcase
      have hsel : resolveGroup fT k (a :: b :: rest) = selectByYear (a :: b :: rest) := by
        rcases hcase with hnone | ⟨t, ht, hno⟩
        · rw [resolveGroup_cons2, hnone]
        · have heq : resolveGroup fT k (a :: b :: rest) =
              (match (a :: b :: rest).filter
                  (fun e => Entry.get e ("title") == some t) with
               | m :: _ => Except.ok m
               | [] => selectByYear (a :: b :: rest)) := by
            rw [resolveGroup_cons2, ht]
          have hfil : (a :: b :: rest).filter
              (fun e => Entry.get e ("title") == some t) = [] := by
            rw [List.filter_eq_nil_iff]
            intro e he
            simpa using hno e he
          rw [heq, hfil]
      constructor
      · intro hy
        obtain ⟨p, q, hpq, hplt⟩ := firstMinByYear_first (b :: rest) a hy
        refine ⟨firstMinByYear a (b :: rest), p, q, ?_, hpq,
          firstMinByYear_min (b :: rest) a hy, hplt⟩
        rw [hsel]
        have hall : (a :: b :: rest).all hasYear = true :=
          List.all_eq_true.mpr (fun x hx => hy x hx)
        show (if (a :: b :: rest).all hasYear = true
            then Except.ok (firstMinByYear a (b :: rest))
            else Except.error ("TypeError")) =
          Except.ok (firstMinByYear a (b :: rest))
        rw [if_pos hall]
      · intro hmiss
        exact ⟨"TypeError", by
          rw [hsel]
          exact selectByYear_missing (a :: b :: rest) (by simp) hmiss⟩

/-- C2 counterexample: both members of the group match the authoritative
title, the second member has the strictly earlier year `2019`, yet the code
keeps the first-encountered match with year `2021` — not the earliest-year
member as the claim requires for multi-match groups. -/
theorem claim_C2_counterexample :
    remove_duplicates (fun _ => Except.ok (some "T"))
      [[("pmid", "555"), ("title", "T"), ("year", "2021")],
       [("pmid", "555"), ("title", "T"), ("year", "2019")]] =
      Except.ok [[("pmid", "555"), ("title", "T"), ("year", "2021")]] ∧
    Entry.get [("pmid", "555"), ("title", "T"), ("year", "2021")] ("title") = some "T" ∧
    Entry.get [("pmid", "555"), ("title", "T"), ("year", "2019")] ("title") = some "T" ∧
    Entry.get [("pmid", "555"), ("title", "T"), ("year", "2021")] ("year") = some "2021" ∧
    Entry.get [("pmid", "555"), ("title", "T"), ("year", "2019")] ("year") = some "2019" ∧
    pyStrLt ("2019").toList ("2021").toList = true :=
  ⟨rfl, rfl, rfl, rfl, rfl, rfl⟩

/-- Witness for C2: with the title oracle unavailable and both years present,
the resolution keeps the first member carrying the minimal year. -/
theorem claim_C2_witness :
    (2 ≤ ([[("pmid", "555"), ("year", "2021")], [("pmid", "555"), ("year", "2019")]] :
      List Entry).length) ∧
    (∃ r p q, resolveGroup (fun _ => Except.ok none) (some "555")
        [[("pmid", "555"), ("year", "2021")], [("pmid", "555"), ("year", "2019")]] =
        Except.ok r ∧
      ([[("pmid", "555"), ("year", "2021")], [("pmid", "555"), ("year", "2019")]] :
        List Entry) = p ++ r :: q ∧
      (∀ x ∈ ([[("pmid", "555"), ("year", "2021")],
        [("pmid", "555"), ("year", "2019")]] : List Entry), yearLt x r = false) ∧
      (∀ x ∈ p, yearLt r x = true)) :=
  ⟨by decide,
    ((claim_C2_group_resolution (fun _ => Except.ok none) (some "555")
        [[("pmid", "555"), ("year", "2021")], [("pmid", "555"), ("year", "2019")]]
        (by decide)).2 (Or.inl rfl)).1 (by decide)⟩

end SiftPM
